import Mathlib

/-!
Verification of the Grover-search simulation engine of `grover_api.py`.

Amplitudes produced by the circuits in the source (layers of H, X, Z, CZ,
CCZ and multi-controlled X gates applied to computational basis states)
always lie in the ring ℚ[√2].  We embed the state vector as a function
from bit assignments (Qiskit order: qubit `i` is bit `i`, least
significant first) to that ring, and each gate of the source as the
corresponding linear map, so that every circuit of the source is evaluated
exactly, with no floating-point error.
-/

namespace GroverSpec

/-- An element `a + b·√2` of the ring ℚ[√2], represented exactly. -/
@[ext]
structure Q2 where
  a : ℚ
  b : ℚ
deriving DecidableEq

namespace Q2

instance : Zero Q2 := ⟨⟨0, 0⟩⟩

instance : One Q2 := ⟨⟨1, 0⟩⟩

instance : Add Q2 := ⟨fun x y => ⟨x.a + y.a, x.b + y.b⟩⟩

instance : Neg Q2 := ⟨fun x => ⟨-x.a, -x.b⟩⟩

instance : Mul Q2 := ⟨fun x y => ⟨x.a * y.a + 2 * (x.b * y.b), x.a * y.b + x.b * y.a⟩⟩

@[simp] theorem zero_a : (0 : Q2).a = 0 := rfl

@[simp] theorem zero_b : (0 : Q2).b = 0 := rfl

@[simp] theorem one_a : (1 : Q2).a = 1 := rfl

@[simp] theorem one_b : (1 : Q2).b = 0 := rfl

@[simp] theorem add_a (x y : Q2) : (x + y).a = x.a + y.a := rfl

@[simp] theorem add_b (x y : Q2) : (x + y).b = x.b + y.b := rfl

@[simp] theorem neg_a (x : Q2) : (-x).a = -x.a := rfl

@[simp] theorem neg_b (x : Q2) : (-x).b = -x.b := rfl

@[simp] theorem mul_a (x y : Q2) : (x * y).a = x.a * y.a + 2 * (x.b * y.b) := rfl

@[simp] theorem mul_b (x y : Q2) : (x * y).b = x.a * y.b + x.b * y.a := rfl

instance : CommRing Q2 where
  add_assoc x y z := by ext <;> simp <;> ring
  zero_add x := by ext <;> simp
  add_zero x := by ext <;> simp
  add_comm x y := by ext <;> simp <;> ring
  mul_assoc x y z := by ext <;> simp <;> ring
  one_mul x := by ext <;> simp
  mul_one x := by ext <;> simp
  left_distrib x y z := by ext <;> simp <;> ring
  right_distrib x y z := by ext <;> simp <;> ring
  mul_comm x y := by ext <;> simp <;> ring
  zero_mul x := by ext <;> simp
  mul_zero x := by ext <;> simp
  neg_add_cancel x := by ext <;> simp
  nsmul := nsmulRec
  zsmul := zsmulRec

/-- The coefficient `1/√2 = √2/2`, the scalar of a Hadamard gate. -/
def s : Q2 := ⟨0, 1/2⟩

/-- Embedding of a rational number into ℚ[√2]. -/
def ofRat (q : ℚ) : Q2 := ⟨q, 0⟩

@[simp] theorem ofRat_a (q : ℚ) : (ofRat q).a = q := rfl

@[simp] theorem ofRat_b (q : ℚ) : (ofRat q).b = 0 := rfl

theorem s_mul_s : s * s = ofRat (1/2) := by
  ext <;> simp [s, ofRat] <;> norm_num

theorem two_s_mul_s : s * s + s * s = 1 := by
  ext <;> simp [s] <;> norm_num

@[simp] theorem two_a : (2 : Q2).a = 2 := by
  rw [← one_add_one_eq_two]
  simp
  norm_num

@[simp] theorem two_b : (2 : Q2).b = 0 := by
  rw [← one_add_one_eq_two]
  simp

theorem ofRat_mul (x y : ℚ) : ofRat (x * y) = ofRat x * ofRat y := by
  ext <;> simp

theorem ofRat_pow (q : ℚ) (k : ℕ) : ofRat (q ^ k) = ofRat q ^ k := by
  induction k with
  | zero =>
      ext <;> simp
  | succ m ih =>
      rw [pow_succ, pow_succ, ofRat_mul, ih]

theorem two_mul_ofRat_half : (2 : Q2) * ofRat (1/2) = 1 := by
  ext <;> simp <;> norm_num

theorem pow_two_mul_ofRat_inv_pow (n : ℕ) : (2 : Q2) ^ n * ofRat (1 / 2 ^ n) = 1 := by
  have h : (1 / 2 ^ n : ℚ) = (1 / 2 : ℚ) ^ n := by
    rw [div_pow, one_pow]
  rw [h, ofRat_pow, ← mul_pow, two_mul_ofRat_half, one_pow]

theorem s_pow_mul_s_pow (n : ℕ) : s ^ n * s ^ n = ofRat (1 / 2 ^ n) := by
  have h : (1 / 2 ^ n : ℚ) = (1 / 2 : ℚ) ^ n := by
    rw [div_pow, one_pow]
  rw [← mul_pow, s_mul_s, h, ofRat_pow]

end Q2

/-! ## State vectors and gates

A state over `n` qubits assigns an amplitude to every bit assignment
`v : Fin n → Bool`.  Qiskit convention (used by `Statevector` in the
source): qubit `i` is bit `i` of the basis index, least significant
first. -/

/-- State vector over `n` qubits with amplitudes in ℚ[√2]. -/
def QState (n : ℕ) := (Fin n → Bool) → Q2

/-- The initial computational basis state |0…0⟩, the state
`Statevector.from_instruction` starts from before any gate. -/
def basisZero (n : ℕ) : QState n := fun v => if v = fun _ => false then 1 else 0

/-- `qc.x(i)`: Pauli-X on qubit `i` permutes the basis by flipping bit `i`. -/
def applyX {n : ℕ} (i : Fin n) (ψ : QState n) : QState n :=
  fun v => ψ (Function.update v i (!(v i)))

/-- `qc.z(i)`: phase flip on every basis state whose bit `i` is 1. -/
def applyZ {n : ℕ} (i : Fin n) (ψ : QState n) : QState n :=
  fun v => if v i then -ψ v else ψ v

/-- `qc.cz(i, j)`: controlled-Z, phase flip where bits `i` and `j` are both 1. -/
def applyCZ {n : ℕ} (i j : Fin n) (ψ : QState n) : QState n :=
  fun v => if v i && v j then -ψ v else ψ v

/-- `qc.ccz(i, j, k)`: doubly-controlled Z. -/
def applyCCZ {n : ℕ} (i j k : Fin n) (ψ : QState n) : QState n :=
  fun v => if v i && v j && v k then -ψ v else ψ v

/-- `qc.mcx(controls, t)`: multi-controlled X flips bit `t` of every basis
state whose control bits are all 1 (an involutive basis permutation). -/
def applyMCX {n : ℕ} (controls : List (Fin n)) (t : Fin n) (ψ : QState n) : QState n :=
  fun v => if controls.all v then ψ (Function.update v t (!(v t))) else ψ v

/-- `qc.h(i)`: Hadamard on qubit `i`,
new amplitude at `v` is `(ψ(v[i:=0]) + (−1)^{v i}·ψ(v[i:=1]))/√2`. -/
def applyH {n : ℕ} (i : Fin n) (ψ : QState n) : QState n :=
  fun v =>
    Q2.s * (ψ (Function.update v i false) +
      if v i then -ψ (Function.update v i true) else ψ (Function.update v i true))

/-- `qc.h(range(num_qubits))`: a Hadamard on every qubit, in order. -/
def applyHAll {n : ℕ} (ψ : QState n) : QState n :=
  (List.finRange n).foldl (fun φ i => applyH i φ) ψ

/-- `qc.x(range(num_qubits))`: a Pauli-X on every qubit, in order. -/
def applyXAll {n : ℕ} (ψ : QState n) : QState n :=
  (List.finRange n).foldl (fun φ i => applyX i φ) ψ

/-- The oracle's X-conjugation loop
(`for i, bit in enumerate(target_bits): if bit == 0: qc.x(i)`): an X gate
on every qubit `i` whose mask bit is set, in order. -/
def applyXMask {n : ℕ} (mask : Fin n → Bool) (ψ : QState n) : QState n :=
  (List.finRange n).foldl (fun φ i => if mask i then applyX i φ else φ) ψ

/-- The multi-controlled-Z block shared by the oracle and the diffusion
operator in the source: `z(0)` for one qubit, `cz(0,1)` for two,
`ccz(0,1,2)` for three, and for `n ≥ 4` qubits `h(t); mcx(controls, t);
h(t)` with `controls = range(n-1)` and `t = n-1` (for `n ≥ 4` the
`len(control_qubits) == 1` branch of the source is unreachable, since
there are `n-1 ≥ 3` controls). -/
def mczNetwork : (n : ℕ) → QState n → QState n
  | 0, ψ => ψ
  | 1, ψ => applyZ 0 ψ
  | 2, ψ => applyCZ 0 1 ψ
  | 3, ψ => applyCCZ 0 1 2 ψ
  | (m + 4), ψ =>
      applyH (Fin.last (m + 3))
        (applyMCX ((List.finRange (m + 3)).map Fin.castSucc) (Fin.last (m + 3))
          (applyH (Fin.last (m + 3)) ψ))

/-- Bit `i` of the target in Qiskit qubit order:
`target_bits = [int(bit) for bit in target_state[::-1]]`, so
`tbit t i = target_state[n-1-i]` with `'1' ↦ true` (for `i < n`; junk
default past the end, never used by the circuits). -/
def tbit (t : List Bool) (i : ℕ) : Bool :=
  t.getD (t.length - 1 - i) false

/-- `build_generalized_grover_oracle(target_state)`: X gates on the qubits
whose (reversed) target bit is 0, the multi-controlled-Z block, then the
same X gates again. -/
def oracleNetwork (t : List Bool) (ψ : QState t.length) : QState t.length :=
  applyXMask (fun i => !(tbit t i.val))
    (mczNetwork t.length (applyXMask (fun i => !(tbit t i.val)) ψ))

/-- `int(target_state, 2)`: the target bit string parsed as a base-2
integer, most significant bit first. -/
def targetIndex (t : List Bool) : ℕ :=
  t.foldl (fun acc bit => 2 * acc + cond bit 1 0) 0

/-- The basis index of a bit assignment (Qiskit convention: bit `i` of the
index is qubit `i`, least significant first). -/
def toIdx {n : ℕ} (v : Fin n → Bool) : ℕ :=
  ∑ i : Fin n, cond (v i) (2 ^ i.val) 0

/-- The oracle as the spec states it: multiply the amplitude at
`targetIndex` by −1 and leave every other amplitude unchanged. -/
def oracleDirect (t : List Bool) (ψ : QState t.length) : QState t.length :=
  fun v => if toIdx v = targetIndex t then -ψ v else ψ v

/-- The diffusion block of the source (`create_grover_circuit` and
`get_grover_iterations`): H on every qubit, X on every qubit, the
multi-controlled-Z block, X on every qubit, H on every qubit. -/
def diffusionNetwork (n : ℕ) (ψ : QState n) : QState n :=
  applyHAll (applyXAll (mczNetwork n (applyXAll (applyHAll ψ))))

/-- The mean amplitude `(Σ amplitudes) / 2^n`. -/
def meanAmp {n : ℕ} (ψ : QState n) : Q2 :=
  Q2.ofRat (1 / 2 ^ n) * ∑ v : Fin n → Bool, ψ v

/-- Diffusion as the spec states it: inversion about the average,
`amplitude[i] ↦ 2·mean − amplitude[i]`. -/
def diffusionDirect (n : ℕ) (ψ : QState n) : QState n :=
  fun v => 2 * meanAmp ψ - ψ v

/-! ## The X-gate layers as bit-mask flips -/

theorem boolXorXor (x y : Bool) : xor (xor x y) y = x := by
  cases x <;> cases y <;> rfl

theorem xmaskFold {n : ℕ} (mask : Fin n → Bool) :
    ∀ (l : List (Fin n)), l.Nodup → ∀ (ψ : QState n) (v : Fin n → Bool),
      l.foldl (fun φ i => if mask i then applyX i φ else φ) ψ v
        = ψ (fun j => xor (v j) (mask j && decide (j ∈ l))) := by
  intro l
  induction l with
  | nil =>
      intro _ ψ v
      simp
  | cons i l2 ih =>
      intro hnd ψ v
      rw [List.nodup_cons] at hnd
      rw [List.foldl_cons, ih hnd.2]
      by_cases hm : mask i
      · simp only [hm, if_true, applyX]
        congr 1
        funext j
        by_cases hj : j = i
        · subst hj
          have hj2 : decide (j ∈ l2) = false := by simp [hnd.1]
          simp [hm, hj2, Function.update_same]
        · rw [Function.update_noteq hj]
          have hmem : (j ∈ i :: l2) = (j ∈ l2) := by simp [List.mem_cons, hj]
          simp [hmem]
      · have hm2 : mask i = false := by simpa using hm
        simp only [hm2, Bool.false_eq_true, if_false]
        congr 1
        funext j
        by_cases hj : j = i
        · subst hj
          simp [hm2]
        · have hmem : (j ∈ i :: l2) = (j ∈ l2) := by simp [List.mem_cons, hj]
          simp [hmem]

theorem applyXMask_eq {n : ℕ} (mask : Fin n → Bool) (ψ : QState n) :
    applyXMask mask ψ = fun v => ψ (fun j => xor (v j) (mask j)) := by
  funext v
  rw [applyXMask, xmaskFold mask (List.finRange n) (List.nodup_finRange n)]
  congr 1
  funext j
  simp [List.mem_finRange]

theorem xallFold {n : ℕ} :
    ∀ (l : List (Fin n)), l.Nodup → ∀ (ψ : QState n) (v : Fin n → Bool),
      l.foldl (fun φ i => applyX i φ) ψ v = ψ (fun j => xor (v j) (decide (j ∈ l))) := by
  intro l
  induction l with
  | nil =>
      intro _ ψ v
      simp
  | cons i l2 ih =>
      intro hnd ψ v
      rw [List.nodup_cons] at hnd
      rw [List.foldl_cons, ih hnd.2]
      simp only [applyX]
      congr 1
      funext j
      by_cases hj : j = i
      · subst hj
        have hj2 : decide (j ∈ l2) = false := by simp [hnd.1]
        simp [hj2, Function.update_same]
      · rw [Function.update_noteq hj]
        have hmem : (j ∈ i :: l2) = (j ∈ l2) := by simp [List.mem_cons, hj]
        simp [hmem]

theorem applyXAll_eq {n : ℕ} (ψ : QState n) :
    applyXAll ψ = fun v => ψ (fun j => !(v j)) := by
  funext v
  rw [applyXAll, xallFold (List.finRange n) (List.nodup_finRange n)]
  congr 1
  funext j
  simp [List.mem_finRange]

/-! ## The multi-controlled-Z block is a conditional phase flip -/

theorem all_update_of_not_mem {n : ℕ} (l : List (Fin n)) (t : Fin n)
    (h : ∀ c ∈ l, c ≠ t) (v : Fin n → Bool) (b : Bool) :
    l.all (Function.update v t b) = l.all v := by
  induction l with
  | nil => rfl
  | cons c cs ih =>
      simp only [List.all_cons]
      rw [Function.update_noteq (h c (List.mem_cons_self c cs))]
      rw [ih (fun x hx => h x (List.mem_cons_of_mem c hx))]

/-- The `h(t); mcx(controls, t); h(t)` block of the source equals a phase
flip on the basis states whose control bits and target bit are all 1. -/
theorem hmxhEq {n : ℕ} (t : Fin n) (controls : List (Fin n))
    (hc : ∀ c ∈ controls, c ≠ t) (ψ : QState n) :
    applyH t (applyMCX controls t (applyH t ψ))
      = fun v => if controls.all v && v t then -ψ v else ψ v := by
  funext v
  simp only [applyH, applyMCX, Function.update_same, Function.update_idem,
    all_update_of_not_mem controls t hc, Bool.not_false, Bool.not_true,
    Bool.false_eq_true, if_false, if_true]
  by_cases hC : controls.all v = true
  · by_cases hv : v t = true
    · have hveq : Function.update v t true = v := by
        rw [← hv]
        exact Function.update_eq_self t v
      simp only [hC, hv, hveq, if_true, Bool.and_self]
      linear_combination (-(ψ v)) * Q2.two_s_mul_s
    · have hvf : v t = false := by simpa using hv
      have hveq : Function.update v t false = v := by
        rw [← hvf]
        exact Function.update_eq_self t v
      simp only [hC, hvf, hveq, if_true, Bool.false_eq_true, if_false, Bool.and_false]
      linear_combination (ψ v) * Q2.two_s_mul_s
  · have hCf : controls.all v = false := by simpa using hC
    by_cases hv : v t = true
    · have hveq : Function.update v t true = v := by
        rw [← hv]
        exact Function.update_eq_self t v
      simp only [hCf, hv, hveq, if_true, Bool.false_eq_true, if_false, Bool.false_and]
      linear_combination (ψ v) * Q2.two_s_mul_s
    · have hvf : v t = false := by simpa using hv
      have hveq : Function.update v t false = v := by
        rw [← hvf]
        exact Function.update_eq_self t v
      simp only [hCf, hvf, hveq, Bool.false_eq_true, if_false, Bool.false_and]
      linear_combination (ψ v) * Q2.two_s_mul_s

/-- The multi-controlled-Z block of the source flips the sign of exactly
the all-ones basis state, for every supported qubit count. -/
theorem mczNetwork_eq {n : ℕ} (hn : 1 ≤ n) (ψ : QState n) :
    mczNetwork n ψ = fun v => if ∀ i, v i = true then -ψ v else ψ v := by
  rcases n with _ | _ | _ | _ | m
  · omega
  · funext v
    simp only [mczNetwork, applyZ]
    refine if_congr ?_ rfl rfl
    constructor
    · intro h i
      fin_cases i
      exact h
    · intro h
      exact h 0
  · funext v
    simp only [mczNetwork, applyCZ]
    refine if_congr ?_ rfl rfl
    rw [Bool.and_eq_true]
    constructor
    · rintro ⟨h0, h1⟩ i
      fin_cases i
      · exact h0
      · exact h1
    · intro h
      exact ⟨h 0, h 1⟩
  · funext v
    simp only [mczNetwork, applyCCZ]
    refine if_congr ?_ rfl rfl
    rw [Bool.and_eq_true, Bool.and_eq_true]
    constructor
    · rintro ⟨⟨h0, h1⟩, h2⟩ i
      fin_cases i
      · exact h0
      · exact h1
      · exact h2
    · intro h
      exact ⟨⟨h 0, h 1⟩, h 2⟩
  · have hc : ∀ c ∈ (List.finRange (m + 3)).map Fin.castSucc, c ≠ Fin.last (m + 3) := by
      intro c hcmem
      simp only [List.mem_map] at hcmem
      obtain ⟨j, _, rfl⟩ := hcmem
      exact Fin.ne_of_lt (Fin.castSucc_lt_last j)
    simp only [mczNetwork]
    rw [hmxhEq _ _ hc]
    funext v
    refine if_congr ?_ rfl rfl
    simp only [Bool.and_eq_true, List.all_eq_true]
    constructor
    · rintro ⟨h1, h2⟩ i
      refine Fin.lastCases ?_ ?_ i
      · exact h2
      · intro j
        exact h1 _ (List.mem_map_of_mem _ (List.mem_finRange j))
    · intro h
      exact ⟨fun x _ => h x, h _⟩

/-! ## The oracle network equals a sign flip at the target assignment -/

theorem boolXorNot (x y : Bool) : (xor x (!y) = true) = (x = y) := by
  cases x <;> cases y <;> simp

/-- The gate-level oracle flips the sign of exactly the basis state whose
bits agree with the (reversed) target bits. -/
theorem oracleNetwork_eq_flip (t : List Bool) (hn : 1 ≤ t.length) (ψ : QState t.length) :
    oracleNetwork t ψ
      = fun v => if ∀ i : Fin t.length, v i = tbit t i.val then -ψ v else ψ v := by
  funext v
  simp only [oracleNetwork, applyXMask_eq, mczNetwork_eq hn, boolXorXor, boolXorNot]

/-! ## Index arithmetic: bit assignments, basis indices, target index -/

theorem targetIndex_nil : targetIndex [] = 0 := rfl

theorem targetIndex_append (t : List Bool) (b : Bool) :
    targetIndex (t ++ [b]) = 2 * targetIndex t + cond b 1 0 := by
  rw [targetIndex, targetIndex, List.foldl_append]
  rfl

theorem toIdx_succ {m : ℕ} (v : Fin (m + 1) → Bool) :
    toIdx v = cond (v 0) 1 0 + 2 * toIdx (fun i => v i.succ) := by
  rw [toIdx, Fin.sum_univ_succ, toIdx, Finset.mul_sum]
  congr 1
  apply Finset.sum_congr rfl
  intro i _
  cases v i.succ <;> simp [pow_succ, mul_comm]

theorem toIdx_lt {n : ℕ} (v : Fin n → Bool) : toIdx v < 2 ^ n := by
  induction n with
  | zero =>
      simp [toIdx]
  | succ m ih =>
      rw [toIdx_succ]
      have h1 := ih (fun i => v i.succ)
      have h2 : cond (v 0) 1 0 ≤ 1 := by cases v 0 <;> simp
      have h3 : 2 ^ (m + 1) = 2 * 2 ^ m := by ring
      omega

theorem toIdx_inj {n : ℕ} : ∀ v w : Fin n → Bool, toIdx v = toIdx w → v = w := by
  induction n with
  | zero =>
      intro v w _
      funext i
      exact i.elim0
  | succ m ih =>
      intro v w h
      rw [toIdx_succ, toIdx_succ] at h
      have h0 : v 0 = w 0 := by
        cases hv0 : v 0 <;> cases hw0 : w 0

        · rfl
        · rw [hv0, hw0] at h
          simp only [Bool.cond_true, Bool.cond_false, Nat.zero_add] at h
          exact absurd h (by omega)
        · rw [hv0, hw0] at h
          simp only [Bool.cond_true, Bool.cond_false, Nat.zero_add] at h
          exact absurd h (by omega)
        · rfl
      have htail : (fun i : Fin m => v i.succ) = (fun i : Fin m => w i.succ) := by
        apply ih
        rw [h0] at h
        omega
      funext i
      refine Fin.cases ?_ ?_ i
      · exact h0
      · intro j
        exact congrFun htail j

theorem tbit_cons_top (b : Bool) (t : List Bool) : tbit (b :: t) t.length = b := by
  have h : (b :: t).length - 1 - t.length = 0 := by simp
  rw [tbit, h]
  rfl

theorem tbit_cons (b : Bool) (t : List Bool) (j : ℕ) (hj : j < t.length) :
    tbit (b :: t) j = tbit t j := by
  have h : (b :: t).length - 1 - j = (t.length - 1 - j) + 1 := by
    simp only [List.length_cons]
    omega
  rw [tbit, h, List.getD_cons_succ, tbit]

theorem targetIndex_cons (b : Bool) (t : List Bool) :
    targetIndex (b :: t) = cond b 1 0 * 2 ^ t.length + targetIndex t := by
  have hfold : ∀ (l : List Bool) (acc : ℕ),
      l.foldl (fun a bit => 2 * a + cond bit 1 0) acc
        = acc * 2 ^ l.length + l.foldl (fun a bit => 2 * a + cond bit 1 0) 0 := by
    intro l
    induction l with
    | nil =>
        intro acc
        simp
    | cons c cs ih =>
        intro acc
        rw [List.foldl_cons, ih, List.foldl_cons, ih (2 * 0 + cond c 1 0)]
        simp only [List.length_cons]
        rw [pow_succ]
        ring
  rw [targetIndex, List.foldl_cons, hfold, targetIndex]
  have h0 : 2 * 0 + cond b 1 0 = cond b 1 0 := by omega
  rw [h0]

theorem toIdx_tbit : ∀ t : List Bool,
    toIdx (fun i : Fin t.length => tbit t i.val) = targetIndex t := by
  intro t
  induction t with
  | nil =>
      rw [targetIndex_nil]
      simp [toIdx]
  | cons b t2 ih =>
      show toIdx (fun i : Fin (t2.length + 1) => tbit (b :: t2) i.val) = targetIndex (b :: t2)
      rw [targetIndex_cons, toIdx, Fin.sum_univ_castSucc]
      have hcs : ∑ j : Fin t2.length,
          cond (tbit (b :: t2) (Fin.castSucc j).val) (2 ^ (Fin.castSucc j).val) 0
            = targetIndex t2 := by
        rw [← ih, toIdx]
        apply Finset.sum_congr rfl
        intro j _
        rw [Fin.coe_castSucc, tbit_cons b t2 j.val j.isLt]
      rw [hcs, Fin.val_last, tbit_cons_top]
      cases b <;> simp <;> omega

/-- Matching the target bit by bit is the same as sitting at basis index
`targetIndex` (the target string parsed as a base-2 integer). -/
theorem toIdx_eq_targetIndex_iff (t : List Bool) (v : Fin t.length → Bool) :
    toIdx v = targetIndex t ↔ ∀ i : Fin t.length, v i = tbit t i.val := by
  constructor
  · intro h
    have hvw := toIdx_inj v (fun i => tbit t i.val) (by rw [h, toIdx_tbit])
    intro i
    exact congrFun hvw i
  · intro h
    rw [funext h, toIdx_tbit]

/-- The gate-level oracle of the source is exactly the spec's oracle:
multiply the amplitude at `targetIndex` by −1, keep every other
amplitude. -/
theorem oracleNetwork_eq_direct (t : List Bool) (hn : 1 ≤ t.length) (ψ : QState t.length) :
    oracleNetwork t ψ = oracleDirect t ψ := by
  rw [oracleNetwork_eq_flip t hn]
  funext v
  show _ = if toIdx v = targetIndex t then -ψ v else ψ v
  exact if_congr (toIdx_eq_targetIndex_iff t v).symm rfl rfl

/-! ## Linearity and involutivity of the Hadamard layer -/

theorem applyH_sub {n : ℕ} (i : Fin n) (f g : QState n) :
    applyH i (fun v => f v - g v) = fun v => applyH i f v - applyH i g v := by
  funext v
  simp only [applyH]
  cases hvi : v i <;> simp only [hvi, Bool.false_eq_true, if_false, if_true] <;> ring

theorem applyH_smul {n : ℕ} (i : Fin n) (c : Q2) (f : QState n) :
    applyH i (fun v => c * f v) = fun v => c * applyH i f v := by
  funext v
  simp only [applyH]
  cases hvi : v i <;> simp only [hvi, Bool.false_eq_true, if_false, if_true] <;> ring

theorem applyH_comm {n : ℕ} (i j : Fin n) (hij : i ≠ j) (ψ : QState n) :
    applyH i (applyH j ψ) = applyH j (applyH i ψ) := by
  funext v
  simp only [applyH, Function.update_noteq hij, Function.update_noteq (Ne.symm hij),
    Function.update_comm hij]
  cases hvi : v i <;> cases hvj : v j <;>
    simp only [hvi, hvj, Bool.false_eq_true, if_false, if_true] <;> ring

theorem applyH_applyH {n : ℕ} (i : Fin n) (ψ : QState n) :
    applyH i (applyH i ψ) = ψ := by
  funext v
  simp only [applyH, Function.update_same, Function.update_idem, Bool.false_eq_true,
    if_false, if_true]
  cases hvi : v i
  case false =>
    have hveq : Function.update v i false = v := by
      rw [← hvi]
      exact Function.update_eq_self i v
    simp only [hvi, hveq, Bool.false_eq_true, if_false]
    linear_combination (ψ v) * Q2.two_s_mul_s
  case true =>
    have hveq : Function.update v i true = v := by
      rw [← hvi]
      exact Function.update_eq_self i v
    simp only [hvi, hveq, if_true]
    linear_combination (ψ v) * Q2.two_s_mul_s

theorem hfold_sub {n : ℕ} :
    ∀ (l : List (Fin n)) (f g : QState n),
      l.foldl (fun φ i => applyH i φ) (fun v => f v - g v)
        = fun v => l.foldl (fun φ i => applyH i φ) f v
            - l.foldl (fun φ i => applyH i φ) g v := by
  intro l
  induction l with
  | nil =>
      intro f g
      rfl
  | cons i l2 ih =>
      intro f g
      rw [List.foldl_cons, applyH_sub, ih, List.foldl_cons, List.foldl_cons]

theorem hfold_smul {n : ℕ} :
    ∀ (l : List (Fin n)) (c : Q2) (f : QState n),
      l.foldl (fun φ i => applyH i φ) (fun v => c * f v)
        = fun v => c * l.foldl (fun φ i => applyH i φ) f v := by
  intro l
  induction l with
  | nil =>
      intro c f
      rfl
  | cons i l2 ih =>
      intro c f
      rw [List.foldl_cons, applyH_smul, ih, List.foldl_cons]

theorem hfold_comm {n : ℕ} (i : Fin n) :
    ∀ (l : List (Fin n)), i ∉ l → ∀ ψ : QState n,
      l.foldl (fun φ k => applyH k φ) (applyH i ψ)
        = applyH i (l.foldl (fun φ k => applyH k φ) ψ) := by
  intro l
  induction l with
  | nil =>
      intro _ ψ
      rfl
  | cons j l2 ih =>
      intro hmem ψ
      have hij : i ≠ j := fun h => hmem (h ▸ List.mem_cons_self j l2)
      rw [List.foldl_cons, List.foldl_cons, applyH_comm j i (Ne.symm hij)]
      exact ih (fun h => hmem (List.mem_cons_of_mem j h)) (applyH j ψ)

theorem hfold_invol {n : ℕ} :
    ∀ (l : List (Fin n)), l.Nodup → ∀ ψ : QState n,
      l.foldl (fun φ k => applyH k φ) (l.foldl (fun φ k => applyH k φ) ψ) = ψ := by
  intro l
  induction l with
  | nil =>
      intro _ ψ
      rfl
  | cons i l2 ih =>
      intro hnd ψ
      rw [List.nodup_cons] at hnd
      rw [List.foldl_cons, List.foldl_cons, hfold_comm i l2 hnd.1 ψ, applyH_applyH]
      exact ih hnd.2 ψ

theorem applyHAll_sub {n : ℕ} (f g : QState n) :
    applyHAll (fun v => f v - g v) = fun v => applyHAll f v - applyHAll g v :=
  hfold_sub (List.finRange n) f g

theorem applyHAll_smul {n : ℕ} (c : Q2) (f : QState n) :
    applyHAll (fun v => c * f v) = fun v => c * applyHAll f v :=
  hfold_smul (List.finRange n) c f

theorem applyHAll_invol {n : ℕ} (ψ : QState n) :
    applyHAll (applyHAll ψ) = ψ :=
  hfold_invol (List.finRange n) (List.nodup_finRange n) ψ

/-! ## The Hadamard layer on |0…0⟩ and evaluated at the all-zero point -/

/-- Intermediate state while Hadamard gates spread |0…0⟩: uniform over the
already-processed qubits, zero elsewhere. -/
def deltaLike {n : ℕ} (l : List (Fin n)) : QState n :=
  fun v => if ∀ j, j ∉ l → v j = false then Q2.s ^ l.length else 0

theorem deltaLike_nil {n : ℕ} : deltaLike ([] : List (Fin n)) = basisZero n := by
  funext v
  rw [deltaLike, basisZero, List.length_nil, pow_zero]
  refine if_congr ?_ rfl rfl
  constructor
  · intro h
    funext j
    exact h j (by simp)
  · intro h j _
    exact congrFun h j

theorem applyH_deltaLike {n : ℕ} (i : Fin n) (acc : List (Fin n)) (hi : i ∉ acc) :
    applyH i (deltaLike acc) = deltaLike (i :: acc) := by
  funext v
  simp only [applyH, deltaLike]
  have h1 : ¬ ∀ j, j ∉ acc → Function.update v i true j = false := by
    intro hall
    have hall2 := hall i hi
    rw [Function.update_same] at hall2
    exact absurd hall2 (by simp)
  rw [if_neg h1]
  have h0 : (∀ j, j ∉ acc → Function.update v i false j = false)
      ↔ (∀ j, j ∉ i :: acc → v j = false) := by
    constructor
    · intro h j hj
      have hji : j ≠ i := fun he => hj (he ▸ List.mem_cons_self i acc)
      have hja : j ∉ acc := fun ha => hj (List.mem_cons_of_mem i ha)
      have h2 := h j hja
      rwa [Function.update_noteq hji] at h2
    · intro h j hja
      by_cases hji : j = i
      · subst hji
        rw [Function.update_same]
      · rw [Function.update_noteq hji]
        exact h j (fun hm => (List.mem_cons.mp hm).elim hji hja)
  rw [if_congr h0 rfl rfl]
  by_cases hC : ∀ j, j ∉ i :: acc → v j = false
  · rw [if_pos hC, if_pos hC, List.length_cons, pow_succ]
    cases hvi : v i <;> simp <;> ring
  · rw [if_neg hC, if_neg hC]
    cases hvi : v i <;> simp

theorem deltaLike_congr {n : ℕ} (l1 l2 : List (Fin n)) (hlen : l1.length = l2.length)
    (hmem : ∀ j, j ∈ l1 ↔ j ∈ l2) : deltaLike l1 = deltaLike l2 := by
  funext v
  rw [deltaLike, deltaLike, hlen]
  refine if_congr ?_ rfl rfl
  constructor
  · intro h j hj
    exact h j (fun hm => hj ((hmem j).mp hm))
  · intro h j hj
    exact h j (fun hm => hj ((hmem j).mpr hm))

theorem hfold_deltaLike {n : ℕ} :
    ∀ (l acc : List (Fin n)), (l ++ acc).Nodup →
      l.foldl (fun φ k => applyH k φ) (deltaLike acc) = deltaLike (l ++ acc) := by
  intro l
  induction l with
  | nil =>
      intro acc _
      rfl
  | cons i l2 ih =>
      intro acc hnd
      have h2 : (i :: (l2 ++ acc)).Nodup := hnd
      rw [List.nodup_cons] at h2
      have hi : i ∉ acc := fun ha => h2.1 (List.mem_append_right l2 ha)
      rw [List.foldl_cons, applyH_deltaLike i acc hi]
      have hnd2 : (l2 ++ i :: acc).Nodup := by
        have hperm : (l2 ++ i :: acc).Perm (i :: (l2 ++ acc)) := List.perm_middle
        exact hperm.nodup_iff.mpr hnd
      rw [ih (i :: acc) hnd2]
      apply deltaLike_congr
      · simp only [List.length_append, List.length_cons]
        omega
      · intro j
        simp only [List.mem_append, List.mem_cons]
        tauto

/-- The first Hadamard layer turns |0…0⟩ into the uniform state with every
amplitude `(1/√2)^n`. -/
theorem applyHAll_basisZero {n : ℕ} :
    applyHAll (basisZero n) = fun _ => Q2.s ^ n := by
  rw [applyHAll, ← deltaLike_nil,
    hfold_deltaLike (List.finRange n) [] (by simp [List.nodup_finRange])]
  funext v
  simp only [deltaLike]
  rw [if_pos]
  · simp
  · intro j hj
    exact absurd (by simp [List.mem_finRange] : j ∈ List.finRange n ++ []) hj

/-- The assignments agreeing with `v` outside the qubit list `l`. -/
def cube {n : ℕ} (l : List (Fin n)) (v : Fin n → Bool) : Finset (Fin n → Bool) :=
  Finset.univ.filter (fun w => ∀ j, j ∉ l → w j = v j)

theorem mem_cube {n : ℕ} {l : List (Fin n)} {v w : Fin n → Bool} :
    w ∈ cube l v ↔ ∀ j, j ∉ l → w j = v j := by
  rw [cube, Finset.mem_filter]
  simp

theorem cube_sum_split {n : ℕ} (l : List (Fin n)) (i : Fin n) (hi : i ∉ l)
    (v : Fin n → Bool) (hv : v i = false) (f : (Fin n → Bool) → Q2) :
    ∑ w ∈ cube (i :: l) v, f w
      = ∑ w ∈ cube l v, (f w + f (Function.update w i true)) := by
  rw [← Finset.sum_filter_add_sum_filter_not (cube (i :: l) v) (fun w => w i = false) f]
  have hA : (cube (i :: l) v).filter (fun w => w i = false) = cube l v := by
    ext w
    rw [Finset.mem_filter, mem_cube, mem_cube]
    constructor
    · rintro ⟨h1, h2⟩ j hj
      by_cases hji : j = i
      · subst hji
        rw [h2, hv]
      · exact h1 j (fun hm => (List.mem_cons.mp hm).elim hji hj)
    · intro h
      refine ⟨fun j hj => h j (fun hm => hj (List.mem_cons_of_mem i hm)), ?_⟩
      rw [h i hi, hv]
  have hB : ∑ w ∈ (cube (i :: l) v).filter (fun w => ¬(w i = false)), f w
      = ∑ w ∈ cube l v, f (Function.update w i true) := by
    apply Finset.sum_nbij' (fun w => Function.update w i false)
      (fun w => Function.update w i true)
    · intro w hw
      rw [Finset.mem_filter, mem_cube] at hw
      rw [mem_cube]
      intro j hj
      by_cases hji : j = i
      · subst hji
        rw [Function.update_same, hv]
      · rw [Function.update_noteq hji]
        exact hw.1 j (fun hm => (List.mem_cons.mp hm).elim hji hj)
    · intro u hu
      rw [mem_cube] at hu
      rw [Finset.mem_filter, mem_cube]
      constructor
      · intro j hj
        have hji : j ≠ i := fun he => hj (he ▸ List.mem_cons_self i l)
        rw [Function.update_noteq hji]
        exact hu j (fun hm => hj (List.mem_cons_of_mem i hm))
      · rw [Function.update_same]
        simp
    · intro w hw
      rw [Finset.mem_filter] at hw
      have hwi : w i = true := by
        cases hwi2 : w i
        · exact absurd hwi2 hw.2
        · rfl
      rw [Function.update_idem, ← hwi, Function.update_eq_self]
    · intro u hu
      rw [mem_cube] at hu
      have hui : u i = false := by
        rw [hu i hi, hv]
      rw [Function.update_idem, ← hui, Function.update_eq_self]
    · intro w hw
      rw [Finset.mem_filter] at hw
      have hwi : w i = true := by
        cases hwi2 : w i
        · exact absurd hwi2 hw.2
        · rfl
      rw [Function.update_idem, ← hwi, Function.update_eq_self]
  rw [hA, hB, ← Finset.sum_add_distrib]

theorem hfold_eval_zero {n : ℕ} :
    ∀ (l : List (Fin n)), l.Nodup → ∀ (ψ : QState n) (v : Fin n → Bool),
      (∀ j ∈ l, v j = false) →
      l.foldl (fun φ k => applyH k φ) ψ v = Q2.s ^ l.length * ∑ w ∈ cube l v, ψ w := by
  intro l
  induction l with
  | nil =>
      intro _ ψ v _
      have hc : cube ([] : List (Fin n)) v = {v} := by
        ext w
        rw [mem_cube, Finset.mem_singleton]
        constructor
        · intro h
          funext j
          exact h j (by simp)
        · intro h j _
          rw [h]
      rw [List.foldl_nil, hc, Finset.sum_singleton, List.length_nil, pow_zero, one_mul]
  | cons i l2 ih =>
      intro hnd ψ v hv
      rw [List.nodup_cons] at hnd
      rw [List.foldl_cons,
        ih hnd.2 (applyH i ψ) v (fun j hj => hv j (List.mem_cons_of_mem i hj))]
      have hvi : v i = false := hv i (List.mem_cons_self i l2)
      rw [cube_sum_split l2 i hnd.1 v hvi ψ]
      have hterm : ∀ w ∈ cube l2 v,
          applyH i ψ w = Q2.s * (ψ w + ψ (Function.update w i true)) := by
        intro w hw
        rw [mem_cube] at hw
        have hwi : w i = false := by rw [hw i hnd.1, hvi]
        simp only [applyH]
        rw [hwi]
        simp only [Bool.false_eq_true, if_false]
        rw [show Function.update w i false = w by rw [← hwi]; exact Function.update_eq_self i w]
      rw [Finset.sum_congr rfl hterm, ← Finset.mul_sum, List.length_cons, pow_succ]
      ring

/-- Evaluating the Hadamard layer at the all-zero assignment yields
`(1/√2)^n` times the sum of all amplitudes. -/
theorem applyHAll_eval_zero {n : ℕ} (ψ : QState n) :
    applyHAll ψ (fun _ => false) = Q2.s ^ n * ∑ w : Fin n → Bool, ψ w := by
  rw [applyHAll, hfold_eval_zero (List.finRange n) (List.nodup_finRange n) ψ
    (fun _ => false) (fun j _ => rfl)]
  congr 1
  · rw [List.length_finRange]
  · have hcu : cube (List.finRange n) (fun _ => false) = Finset.univ := by
      ext w
      rw [mem_cube]
      simp [List.mem_finRange]
    rw [hcu]

/-! ## Closed form of the diffusion block -/

/-- The `X / multi-controlled-Z / X` centre of the diffusion block flips
the sign of exactly the all-zero basis state. -/
theorem diffusionCenter_eq {n : ℕ} (hn : 1 ≤ n) (φ : QState n) :
    applyXAll (mczNetwork n (applyXAll φ))
      = fun v => φ v - (2 * φ (fun _ => false)) * basisZero n v := by
  funext v
  simp only [applyXAll_eq, mczNetwork_eq hn, Bool.not_not, Bool.not_eq_true']
  rw [basisZero]
  by_cases hv : v = (fun _ => false)
  · have hall : ∀ i, v i = false := fun i => by rw [hv]
    rw [if_pos hall, if_pos hv, hv]
    ring
  · have hnall : ¬ ∀ i, v i = false := fun hall => hv (funext hall)
    rw [if_neg hnall, if_neg hv]
    ring

/-- The full diffusion block of the source maps every amplitude `a` to
`a − 2·mean` computed from the pre-diffusion state: the **negative** of
the spec's inversion `a ↦ 2·mean − a`. -/
theorem diffusionNetwork_eq {n : ℕ} (hn : 1 ≤ n) (ψ : QState n) :
    diffusionNetwork n ψ = fun v => ψ v - 2 * meanAmp ψ := by
  rw [diffusionNetwork, diffusionCenter_eq hn (applyHAll ψ), applyHAll_sub,
    applyHAll_invol, applyHAll_smul, applyHAll_basisZero]
  funext v
  rw [applyHAll_eval_zero ψ, meanAmp]
  linear_combination (-2 * (∑ w : Fin n → Bool, ψ w)) * Q2.s_pow_mul_s_pow n

/-- The diffusion block equals minus the spec's inversion about the
average (same probabilities, opposite global sign). -/
theorem diffusionNetwork_eq_neg_direct {n : ℕ} (hn : 1 ≤ n) (ψ : QState n) :
    diffusionNetwork n ψ = fun v => -(diffusionDirect n ψ v) := by
  rw [diffusionNetwork_eq hn]
  funext v
  show ψ v - 2 * meanAmp ψ = -(2 * meanAmp ψ - ψ v)
  ring

/-! ## The probability trace of `get_grover_iterations` -/

/-- `format(i, f'0{n}b')`: the width-`n` binary representation of `i`,
most significant bit first (`'1' ↦ true`). -/
def binStr : ℕ → ℕ → List Bool
  | 0, _ => []
  | n + 1, i => binStr n (i / 2) ++ [decide (i % 2 = 1)]

/-- `abs(amplitude)**2`: amplitudes here are real, so the square. -/
def probOf {n : ℕ} (ψ : QState n) (v : Fin n → Bool) : Q2 := ψ v * ψ v

/-- The bit assignment of basis index `i` (Qiskit order: qubit `j` is bit
`j` of `i`, least significant first). -/
def bitvecOf (n i : ℕ) : Fin n → Bool := fun j => decide (i / 2 ^ j.val % 2 = 1)

/-- The probability dictionary
`{format(i, f'0{num_qubits}b'): prob for i, prob in enumerate(probs)}`,
as an association list in index order. -/
def probList {n : ℕ} (ψ : QState n) : List (List Bool × Q2) :=
  (List.range (2 ^ n)).map (fun i => (binStr n i, probOf ψ (bitvecOf n i)))

/-- One recorded `IterationStep` of `get_grover_iterations`. -/
structure TraceStep where
  stepName : String
  iterationNumber : ℕ
  probabilities : List (List Bool × Q2)
  targetProbability : Q2

/-- Record a step: name, iteration number, the probability dictionary and
the probability at the target index (`probs[target_index]`). -/
def mkStep {n : ℕ} (name : String) (r : ℕ) (ψ : QState n) (tIdx : ℕ) : TraceStep :=
  ⟨name, r, probList ψ, probOf ψ (bitvecOf n tIdx)⟩

/-- The iteration loop of `get_grover_iterations`: per remaining round,
apply the oracle and record, then apply the diffusion block and record;
`r` is the 1-based number of the current round. -/
def traceRounds (t : List Bool) : ℕ → ℕ → QState t.length → List TraceStep
  | 0, _, _ => []
  | k + 1, r, σ =>
      mkStep "After Oracle" r (oracleNetwork t σ) (targetIndex t)
        :: mkStep "After Diffusion" r (diffusionNetwork t.length (oracleNetwork t σ))
            (targetIndex t)
        :: traceRounds t k (r + 1) (diffusionNetwork t.length (oracleNetwork t σ))

/-- All steps recorded by `get_grover_iterations` when run for `k` rounds:
the initial-superposition step, then the per-round steps. -/
def groverSteps (t : List Bool) (k : ℕ) : List TraceStep :=
  mkStep "Initial Superposition" 0 (applyHAll (basisZero t.length)) (targetIndex t)
    :: traceRounds t k 1 (applyHAll (basisZero t.length))

/-! ## Round trips between indices, assignments and binary keys -/

theorem binStr_length (n i : ℕ) : (binStr n i).length = n := by
  induction n generalizing i with
  | zero => rfl
  | succ m ih =>
      rw [binStr, List.length_append, ih]
      simp

theorem targetIndex_lt (t : List Bool) : targetIndex t < 2 ^ t.length := by
  induction t using List.reverseRecOn with
  | nil => simp [targetIndex_nil]
  | append_singleton t2 b ih =>
      rw [targetIndex_append]
      have hlen : (t2 ++ [b]).length = t2.length + 1 := by simp
      rw [hlen, pow_succ]
      cases b <;> simp <;> omega

theorem targetIndex_binStr (n : ℕ) : ∀ i, i < 2 ^ n → targetIndex (binStr n i) = i := by
  induction n with
  | zero =>
      intro i hi
      rw [pow_zero] at hi
      have h0 : i = 0 := by omega
      subst h0
      rfl
  | succ m ih =>
      intro i hi
      rw [binStr, targetIndex_append, ih (i / 2) (by rw [pow_succ] at hi; omega)]
      have hcond : cond (decide (i % 2 = 1)) 1 0 = i % 2 := by
        rcases Nat.mod_two_eq_zero_or_one i with h | h <;> simp [h]
      rw [hcond]
      omega

theorem binStr_targetIndex : ∀ t : List Bool, binStr t.length (targetIndex t) = t := by
  intro t
  induction t using List.reverseRecOn with
  | nil => rfl
  | append_singleton t2 b ih =>
      have hlen : (t2 ++ [b]).length = t2.length + 1 := by simp
      rw [hlen, targetIndex_append, binStr]
      have hdiv : (2 * targetIndex t2 + cond b 1 0) / 2 = targetIndex t2 := by
        cases b <;> simp <;> omega
      have hmod : decide ((2 * targetIndex t2 + cond b 1 0) % 2 = 1) = b := by
        cases b <;> simp <;> omega
      rw [hdiv, hmod, ih]

theorem bitvecOf_succ (m i : ℕ) (j : Fin m) :
    bitvecOf (m + 1) i j.succ = bitvecOf m (i / 2) j := by
  rw [bitvecOf, bitvecOf]
  have h : i / 2 ^ (j.succ : Fin (m + 1)).val = i / 2 / 2 ^ j.val := by
    rw [Fin.val_succ, pow_succ, Nat.div_div_eq_div_mul, mul_comm (2 ^ j.val) 2]
  rw [h]

theorem toIdx_bitvecOf (n : ℕ) : ∀ i, i < 2 ^ n → toIdx (bitvecOf n i) = i := by
  induction n with
  | zero =>
      intro i hi
      rw [pow_zero] at hi
      rw [toIdx]
      simp
      omega
  | succ m ih =>
      intro i hi
      rw [toIdx_succ]
      have h0 : cond (bitvecOf (m + 1) i 0) 1 0 = i % 2 := by
        rw [bitvecOf]
        have hv : (0 : Fin (m + 1)).val = 0 := rfl
        rw [hv, pow_zero, Nat.div_one]
        rcases Nat.mod_two_eq_zero_or_one i with h | h <;> simp [h]
      have htail : (fun j : Fin m => bitvecOf (m + 1) i j.succ) = bitvecOf m (i / 2) := by
        funext j
        exact bitvecOf_succ m i j
      rw [h0, htail, ih (i / 2) (by rw [pow_succ] at hi; omega)]
      omega

theorem bitvecOf_toIdx {n : ℕ} (v : Fin n → Bool) : bitvecOf n (toIdx v) = v := by
  apply toIdx_inj
  rw [toIdx_bitvecOf n (toIdx v) (toIdx_lt v)]

/-! ## Normalization of every recorded state -/

/-- The sum of squared amplitudes. -/
def normSq {n : ℕ} (ψ : QState n) : Q2 := ∑ v : Fin n → Bool, probOf ψ v

theorem card_assignments (n : ℕ) : Fintype.card (Fin n → Bool) = 2 ^ n := by
  rw [Fintype.card_fun, Fintype.card_bool, Fintype.card_fin]

/-- The uniform state reached by the initial Hadamard layer is normalized. -/
theorem normSq_uniform {n : ℕ} : normSq (applyHAll (basisZero n)) = 1 := by
  rw [normSq, applyHAll_basisZero]
  simp only [probOf]
  rw [Finset.sum_const, Finset.card_univ, card_assignments, nsmul_eq_mul, Nat.cast_pow,
    Nat.cast_ofNat, Q2.s_pow_mul_s_pow]
  exact Q2.pow_two_mul_ofRat_inv_pow n

theorem sum_amp_eq {n : ℕ} (ψ : QState n) :
    ∑ v : Fin n → Bool, ψ v = (2 : Q2) ^ n * meanAmp ψ := by
  rw [meanAmp, ← mul_assoc, Q2.pow_two_mul_ofRat_inv_pow, one_mul]

/-- The oracle never changes any probability: it only flips one sign. -/
theorem probOf_oracle (t : List Bool) (hn : 1 ≤ t.length) (ψ : QState t.length)
    (v : Fin t.length → Bool) : probOf (oracleNetwork t ψ) v = probOf ψ v := by
  rw [probOf, probOf, oracleNetwork_eq_flip t hn]
  simp only []
  by_cases h : ∀ i : Fin t.length, v i = tbit t i.val
  · rw [if_pos h]
    ring
  · rw [if_neg h]

theorem probList_oracle (t : List Bool) (hn : 1 ≤ t.length) (ψ : QState t.length) :
    probList (oracleNetwork t ψ) = probList ψ := by
  simp only [probList, probOf_oracle t hn ψ]

theorem normSq_oracle (t : List Bool) (hn : 1 ≤ t.length) (ψ : QState t.length) :
    normSq (oracleNetwork t ψ) = normSq ψ := by
  rw [normSq, normSq]
  exact Finset.sum_congr rfl (fun v _ => probOf_oracle t hn ψ v)

/-- The diffusion block preserves normalization. -/
theorem normSq_diffusion {n : ℕ} (hn : 1 ≤ n) (ψ : QState n) :
    normSq (diffusionNetwork n ψ) = normSq ψ := by
  rw [diffusionNetwork_eq hn, normSq, normSq]
  simp only [probOf]
  have hexp : ∀ v : Fin n → Bool,
      (ψ v - 2 * meanAmp ψ) * (ψ v - 2 * meanAmp ψ)
        = ψ v * ψ v - (4 * meanAmp ψ) * ψ v + 4 * (meanAmp ψ * meanAmp ψ) := by
    intro v
    ring
  rw [Finset.sum_congr rfl (fun v _ => hexp v), Finset.sum_add_distrib,
    Finset.sum_sub_distrib, ← Finset.mul_sum, Finset.sum_const, Finset.card_univ,
    card_assignments, nsmul_eq_mul, Nat.cast_pow, Nat.cast_ofNat]
  have hs := sum_amp_eq ψ
  linear_combination (-4 * meanAmp ψ) * hs

theorem range_map_sum (m : ℕ) (f : ℕ → Q2) :
    ((List.range m).map f).sum = ∑ i ∈ Finset.range m, f i := by
  induction m with
  | zero => rfl
  | succ k ih =>
      rw [List.range_succ, List.map_append, List.sum_append, Finset.sum_range_succ, ih]
      simp

/-- The recorded probability dictionary of a state sums to its squared
norm. -/
theorem probList_sum {n : ℕ} (ψ : QState n) :
    ((probList ψ).map Prod.snd).sum = normSq ψ := by
  rw [probList, List.map_map, range_map_sum (2 ^ n) _, normSq]
  apply Finset.sum_nbij' (fun i => bitvecOf n i) (fun v => toIdx v)
  · intro a _
    exact Finset.mem_univ _
  · intro v _
    rw [Finset.mem_range]
    exact toIdx_lt v
  · intro a ha
    rw [Finset.mem_range] at ha
    exact toIdx_bitvecOf n a ha
  · intro v _
    exact bitvecOf_toIdx v
  · intro a _
    rfl

theorem traceRounds_sum_one (t : List Bool) (hn : 1 ≤ t.length) :
    ∀ (k r : ℕ) (σ : QState t.length), normSq σ = 1 →
      ∀ st ∈ traceRounds t k r σ, ((st.probabilities.map Prod.snd)).sum = 1 := by
  intro k
  induction k with
  | zero =>
      intro r σ _ st hst
      simp [traceRounds] at hst
  | succ m ih =>
      intro r σ hσ st hst
      have hno : normSq (oracleNetwork t σ) = 1 := by
        rw [normSq_oracle t hn σ, hσ]
      have hnd : normSq (diffusionNetwork t.length (oracleNetwork t σ)) = 1 := by
        rw [normSq_diffusion hn _, hno]
      rw [traceRounds, List.mem_cons, List.mem_cons] at hst
      rcases hst with rfl | rfl | h1
      · show ((probList (oracleNetwork t σ)).map Prod.snd).sum = 1
        rw [probList_sum, hno]
      · show ((probList (diffusionNetwork t.length (oracleNetwork t σ))).map Prod.snd).sum = 1
        rw [probList_sum, hnd]
      · exact ih (r + 1) _ hnd st h1

/-- Every step of the recorded trace has probabilities summing exactly
to 1. -/
theorem groverSteps_sum_one (t : List Bool) (hn : 1 ≤ t.length) (k : ℕ) :
    ∀ st ∈ groverSteps t k, ((st.probabilities.map Prod.snd)).sum = 1 := by
  intro st hst
  rw [groverSteps, List.mem_cons] at hst
  rcases hst with rfl | h1
  · show ((probList (applyHAll (basisZero t.length))).map Prod.snd).sum = 1
    rw [probList_sum, normSq_uniform]
  · exact traceRounds_sum_one t hn k 1 _ normSq_uniform st h1

/-! ## The oracle step never changes recorded probabilities -/

/-- Relation between consecutive trace steps: an "After Oracle" step
carries exactly the probabilities of the step recorded just before it. -/
def oracleKeepsProbs (prev cur : TraceStep) : Prop :=
  cur.stepName = "After Oracle" →
    cur.probabilities = prev.probabilities ∧
      cur.targetProbability = prev.targetProbability

theorem traceRounds_chain (t : List Bool) (hn : 1 ≤ t.length) :
    ∀ (k r : ℕ) (σ : QState t.length) (prev : TraceStep),
      prev.probabilities = probList σ →
      prev.targetProbability = probOf σ (bitvecOf t.length (targetIndex t)) →
      List.Chain' oracleKeepsProbs (prev :: traceRounds t k r σ) := by
  intro k
  induction k with
  | zero =>
      intro r σ prev _ _
      rw [traceRounds]
      exact List.chain'_singleton prev
  | succ m ih =>
      intro r σ prev hp hq
      rw [traceRounds, List.chain'_cons]
      constructor
      · intro _
        constructor
        · show probList (oracleNetwork t σ) = prev.probabilities
          rw [hp]
          exact probList_oracle t hn σ
        · show probOf (oracleNetwork t σ) (bitvecOf t.length (targetIndex t))
            = prev.targetProbability
          rw [hq]
          exact probOf_oracle t hn σ _
      · rw [List.chain'_cons]
        constructor
        · intro hname
          have h2 : ("After Diffusion" : String) = "After Oracle" := hname
          exact absurd h2 (by decide)
        · exact ih (r + 1) _ _ rfl rfl

/-- In the whole recorded trace, every "After Oracle" step repeats the
probabilities of the immediately preceding step. -/
theorem groverSteps_chain (t : List Bool) (hn : 1 ≤ t.length) (k : ℕ) :
    List.Chain' oracleKeepsProbs (groverSteps t k) := by
  rw [groverSteps]
  exact traceRounds_chain t hn k 1 _ _ rfl rfl

/-! ## The optimal iteration count of the three call sites -/

/-- `max(1, int(math.pi / 4 * math.sqrt(N / M)))` with `N = 2**num_qubits`
and `M = 1`, as computed by `create_grover_circuit`. -/
noncomputable def optimalIterationsCircuit (t : List Bool) : ℕ :=
  max 1 (Nat.floor (Real.pi / 4 * Real.sqrt ((2 : ℝ) ^ t.length / 1)))

/-- `max(1, int(math.pi / 4 * math.sqrt(N)))` as computed by
`analyze_target_state`. -/
noncomputable def optimalIterationsAnalyze (t : List Bool) : ℕ :=
  max 1 (Nat.floor (Real.pi / 4 * Real.sqrt ((2 : ℝ) ^ t.length)))

/-- `max(1, int(math.pi / 4 * math.sqrt(N)))` as computed by
`get_grover_iterations`. -/
noncomputable def optimalIterationsTrace (t : List Bool) : ℕ :=
  max 1 (Nat.floor (Real.pi / 4 * Real.sqrt ((2 : ℝ) ^ t.length)))

/-- The spec's formula: `max(1, floor(π/4 · √(N/M)))`, `N = 2^n`, `M = 1`. -/
noncomputable def specOptimalIterations (n : ℕ) : ℕ :=
  max 1 (Nat.floor (Real.pi / 4 * Real.sqrt ((2 : ℝ) ^ n / 1)))

theorem sqrt_two_bounds : 1.414 < Real.sqrt 2 ∧ Real.sqrt 2 < 1.4143 := by
  have hs := Real.sq_sqrt (by norm_num : (0:ℝ) ≤ 2)
  have hnn := Real.sqrt_nonneg 2
  constructor <;> nlinarith [hs, hnn]

theorem sqrt4 : Real.sqrt 4 = 2 := by
  rw [show (4:ℝ) = 2 ^ 2 by norm_num]
  exact Real.sqrt_sq (by norm_num)

theorem sqrt16 : Real.sqrt 16 = 4 := by
  rw [show (16:ℝ) = 4 ^ 2 by norm_num]
  exact Real.sqrt_sq (by norm_num)

theorem sqrt64 : Real.sqrt 64 = 8 := by
  rw [show (64:ℝ) = 8 ^ 2 by norm_num]
  exact Real.sqrt_sq (by norm_num)

theorem sqrt256 : Real.sqrt 256 = 16 := by
  rw [show (256:ℝ) = 16 ^ 2 by norm_num]
  exact Real.sqrt_sq (by norm_num)

theorem sqrt8 : Real.sqrt 8 = 2 * Real.sqrt 2 := by
  rw [show (8:ℝ) = 2 ^ 2 * 2 by norm_num, Real.sqrt_mul (by positivity),
    Real.sqrt_sq (by norm_num)]

theorem sqrt32 : Real.sqrt 32 = 4 * Real.sqrt 2 := by
  rw [show (32:ℝ) = 4 ^ 2 * 2 by norm_num, Real.sqrt_mul (by positivity),
    Real.sqrt_sq (by norm_num)]

theorem sqrt128 : Real.sqrt 128 = 8 * Real.sqrt 2 := by
  rw [show (128:ℝ) = 8 ^ 2 * 2 by norm_num, Real.sqrt_mul (by positivity),
    Real.sqrt_sq (by norm_num)]

theorem floor_eq_of_bounds (x : ℝ) (m : ℕ) (h1 : (m : ℝ) ≤ x) (h2 : x < m + 1) :
    Nat.floor x = m := by
  rw [Nat.floor_eq_iff (le_trans (by positivity) h1)]
  exact ⟨h1, h2⟩

theorem floorPow1 : Nat.floor (Real.pi / 4 * Real.sqrt ((2:ℝ) ^ (1:ℕ))) = 1 := by
  have hpi1 := Real.pi_gt_3141592
  have hpi2 := Real.pi_lt_3141593
  have hs1 := sqrt_two_bounds.1
  have hs2 := sqrt_two_bounds.2
  rw [show ((2:ℝ) ^ (1:ℕ)) = 2 by norm_num]
  apply floor_eq_of_bounds
  · push_cast
    nlinarith
  · push_cast
    nlinarith

theorem floorPow2 : Nat.floor (Real.pi / 4 * Real.sqrt ((2:ℝ) ^ (2:ℕ))) = 1 := by
  have hpi1 := Real.pi_gt_3141592
  have hpi2 := Real.pi_lt_3141593
  rw [show ((2:ℝ) ^ (2:ℕ)) = 4 by norm_num, sqrt4]
  apply floor_eq_of_bounds
  · push_cast
    nlinarith
  · push_cast
    nlinarith

theorem floorPow3 : Nat.floor (Real.pi / 4 * Real.sqrt ((2:ℝ) ^ (3:ℕ))) = 2 := by
  have hpi1 := Real.pi_gt_3141592
  have hpi2 := Real.pi_lt_3141593
  have hs1 := sqrt_two_bounds.1
  have hs2 := sqrt_two_bounds.2
  rw [show ((2:ℝ) ^ (3:ℕ)) = 8 by norm_num, sqrt8]
  apply floor_eq_of_bounds
  · push_cast
    nlinarith
  · push_cast
    nlinarith

theorem floorPow4 : Nat.floor (Real.pi / 4 * Real.sqrt ((2:ℝ) ^ (4:ℕ))) = 3 := by
  have hpi1 := Real.pi_gt_3141592
  have hpi2 := Real.pi_lt_3141593
  rw [show ((2:ℝ) ^ (4:ℕ)) = 16 by norm_num, sqrt16]
  apply floor_eq_of_bounds
  · push_cast
    nlinarith
  · push_cast
    nlinarith

theorem floorPow5 : Nat.floor (Real.pi / 4 * Real.sqrt ((2:ℝ) ^ (5:ℕ))) = 4 := by
  have hpi1 := Real.pi_gt_3141592
  have hpi2 := Real.pi_lt_3141593
  have hs1 := sqrt_two_bounds.1
  have hs2 := sqrt_two_bounds.2
  rw [show ((2:ℝ) ^ (5:ℕ)) = 32 by norm_num, sqrt32]
  apply floor_eq_of_bounds
  · push_cast
    nlinarith
  · push_cast
    nlinarith

theorem floorPow6 : Nat.floor (Real.pi / 4 * Real.sqrt ((2:ℝ) ^ (6:ℕ))) = 6 := by
  have hpi1 := Real.pi_gt_3141592
  have hpi2 := Real.pi_lt_3141593
  rw [show ((2:ℝ) ^ (6:ℕ)) = 64 by norm_num, sqrt64]
  apply floor_eq_of_bounds
  · push_cast
    nlinarith
  · push_cast
    nlinarith

theorem floorPow7 : Nat.floor (Real.pi / 4 * Real.sqrt ((2:ℝ) ^ (7:ℕ))) = 8 := by
  have hpi1 := Real.pi_gt_3141592
  have hpi2 := Real.pi_lt_3141593
  have hs1 := sqrt_two_bounds.1
  have hs2 := sqrt_two_bounds.2
  rw [show ((2:ℝ) ^ (7:ℕ)) = 128 by norm_num, sqrt128]
  apply floor_eq_of_bounds
  · push_cast
    nlinarith
  · push_cast
    nlinarith

theorem floorPow8 : Nat.floor (Real.pi / 4 * Real.sqrt ((2:ℝ) ^ (8:ℕ))) = 12 := by
  have hpi1 := Real.pi_gt_3141592
  have hpi2 := Real.pi_lt_3141593
  rw [show ((2:ℝ) ^ (8:ℕ)) = 256 by norm_num, sqrt256]
  apply floor_eq_of_bounds
  · push_cast
    nlinarith
  · push_cast
    nlinarith

/-- The iteration-count formula evaluated at every supported qubit
count. -/
theorem optIterFloor_table (n : ℕ) (h1 : 1 ≤ n) (h8 : n ≤ 8) :
    max 1 (Nat.floor (Real.pi / 4 * Real.sqrt ((2 : ℝ) ^ n)))
      = [1, 1, 2, 3, 4, 6, 8, 12].getD (n - 1) 0 := by
  interval_cases n
  · rw [floorPow1]
    decide
  · rw [floorPow2]
    decide
  · rw [floorPow3]
    decide
  · rw [floorPow4]
    decide
  · rw [floorPow5]
    decide
  · rw [floorPow6]
    decide
  · rw [floorPow7]
    decide
  · rw [floorPow8]
    decide

/-! ## Endpoint handlers -/

/-- `MIN_QUBITS` under the default configuration. -/
def MIN_QUBITS : ℕ := 1

/-- `MAX_QUBITS` under the default configuration. -/
def MAX_QUBITS : ℕ := 8

/-- The path parameter as bits: character `'1'` is `true`, everything
else (only `'0'` after validation) is `false`. -/
def parseTarget (s : List Char) : List Bool := s.map (fun c => c == '1')

/-- The validation prefix shared verbatim by the three GET handlers
(`analyze_target_state`, `get_circuit_info`, `get_grover_iterations`):
reject with HTTP 400 when the string is empty or has a character other
than `'0'`/`'1'`, then reject with HTTP 400 when the length is outside
`[MIN_QUBITS, MAX_QUBITS]`.  Returns the status code of the rejection,
or `none` when the target is accepted. -/
def validateTarget (s : List Char) : Option ℕ :=
  if s.isEmpty ∨ ¬ (∀ c ∈ s, c = '0' ∨ c = '1') then some 400
  else if s.length < MIN_QUBITS ∨ MAX_QUBITS < s.length then some 400
  else none

/-- The `analyze_target_state` handler: validation first, then the
analysis numbers (search-space size, optimal iteration count); the
rejection happens before anything is computed. -/
noncomputable def analyzeEndpoint (s : List Char) : Except ℕ (ℕ × ℕ) :=
  match validateTarget s with
  | some code => .error code
  | none => .ok (2 ^ s.length, optimalIterationsAnalyze (parseTarget s))

/-- The `get_circuit_info` handler: validation first, then the circuit's
iteration count from `create_grover_circuit`. -/
noncomputable def circuitInfoEndpoint (s : List Char) : Except ℕ ℕ :=
  match validateTarget s with
  | some code => .error code
  | none => .ok (optimalIterationsCircuit (parseTarget s))

/-- The `get_grover_iterations` handler: validation first, then the
iteration count and the recorded step-by-step trace. -/
noncomputable def iterationsEndpoint (s : List Char) : Except ℕ (ℕ × List TraceStep) :=
  match validateTarget s with
  | some code => .error code
  | none =>
      .ok (optimalIterationsTrace (parseTarget s),
        groverSteps (parseTarget s) (optimalIterationsTrace (parseTarget s)))

theorem validateTarget_invalid (s : List Char)
    (h : s = [] ∨ (∃ c ∈ s, ¬(c = '0' ∨ c = '1'))
        ∨ s.length < MIN_QUBITS ∨ MAX_QUBITS < s.length) :
    validateTarget s = some 400 := by
  rw [validateTarget]
  by_cases h1 : s.isEmpty ∨ ¬ (∀ c ∈ s, c = '0' ∨ c = '1')
  · rw [if_pos h1]
  · rw [if_neg h1]
    push_neg at h1
    have hcond : s.length < MIN_QUBITS ∨ MAX_QUBITS < s.length := by
      rcases h with rfl | hbad | hlen | hlen
      · exact absurd rfl h1.1
      · obtain ⟨c, hc, hcbad⟩ := hbad
        exact absurd (h1.2 c hc) hcbad
      · exact Or.inl hlen
      · exact Or.inr hlen
    rw [if_pos hcond]

/-! ## Measurement counts -/

/-- Modelled from the spec: the shot sampler behind
`simulator.run(transpiled_circuit, shots=request.shots)` in
`run_grover_search` lives in the external Aer simulator, not in this
repository's sources.  Following §4.4 of the spec, a run of `S` shots is
`S` independent categorical draws from the final distribution, each draw
incrementing the count of its outcome basis state; `draws` is the list of
outcomes and the counts tally them. -/
def measurementCounts {m : ℕ} (draws : List (Fin m)) : Fin m → ℕ :=
  fun b => draws.count b

theorem sum_measurementCounts {m : ℕ} (draws : List (Fin m)) :
    ∑ b : Fin m, measurementCounts draws b = draws.length := by
  induction draws with
  | nil =>
      simp [measurementCounts]
  | cons d rest ih =>
      simp only [measurementCounts, List.count_cons] at ih ⊢
      rw [Finset.sum_add_distrib, ih, List.length_cons]
      congr 1
      rw [Finset.sum_congr rfl (fun b _ => by
        show (if d == b then 1 else 0) = if d = b then 1 else 0
        rw [show (d == b) = decide (d = b) from rfl]
        simp)]
      rw [Finset.sum_ite_eq Finset.univ d (fun _ => 1)]
      simp

/-- `steps[-1].target_probability`: the target probability of the last
recorded step. -/
def finalTargetProbability (t : List Bool) (k : ℕ) : Q2 :=
  ((groverSteps t k).map TraceStep.targetProbability).getLastD 0

/-- Summing over the two assignments of a single qubit. -/
theorem sum_fun_one (f : (Fin 1 → Bool) → Q2) :
    ∑ v : Fin 1 → Bool, f v = f (fun _ => true) + f (fun _ => false) := by
  rw [← Fintype.sum_equiv ((Equiv.funUnique (Fin 1) Bool).symm)
      (fun b => f ((Equiv.funUnique (Fin 1) Bool).symm b)) f (fun b => rfl)]
  rw [Fintype.sum_bool]
  rfl

/-- The mean amplitude vanishes after the oracle on one qubit. -/
theorem meanAmp_oracle_one :
    @meanAmp 1 (oracleDirect [true] ((fun _ => Q2.s ^ 1) : QState 1)) = 0 := by
  show Q2.ofRat (1 / 2 ^ (1:ℕ))
      * ∑ v : Fin 1 → Bool, oracleDirect [true] ((fun _ => Q2.s ^ 1) : QState 1) v = 0
  rw [sum_fun_one]
  have hc1 : @toIdx 1 ((fun _ => true) : Fin 1 → Bool) = targetIndex [true] := by decide
  have hc2 : ¬ @toIdx 1 ((fun _ => false) : Fin 1 → Bool) = targetIndex [true] := by decide
  have h1 : oracleDirect [true] ((fun _ => Q2.s ^ 1) : QState 1)
      ((fun _ => true) : Fin 1 → Bool) = -(Q2.s ^ 1) := by
    show (if @toIdx 1 ((fun _ => true) : Fin 1 → Bool) = targetIndex [true]
        then -(Q2.s ^ 1) else Q2.s ^ 1) = -(Q2.s ^ 1)
    rw [if_pos hc1]
  have h2 : oracleDirect [true] ((fun _ => Q2.s ^ 1) : QState 1)
      ((fun _ => false) : Fin 1 → Bool) = Q2.s ^ 1 := by
    show (if @toIdx 1 ((fun _ => false) : Fin 1 → Bool) = targetIndex [true]
        then -(Q2.s ^ 1) else Q2.s ^ 1) = Q2.s ^ 1
    rw [if_neg hc2]
  rw [h1, h2]
  ring

/-- The final recorded target probability of the 1-qubit, 1-round trace
is exactly 1/2. -/
theorem finalProb_one : finalTargetProbability [true] 1 = Q2.ofRat (1/2) := by
  have h0 : finalTargetProbability [true] 1
      = probOf (diffusionNetwork 1 (oracleNetwork [true] (@applyHAll 1 (basisZero 1))))
          (bitvecOf 1 1) := rfl
  rw [h0, applyHAll_basisZero, oracleNetwork_eq_direct [true] (by norm_num),
    diffusionNetwork_eq (by norm_num)]
  have hb : bitvecOf 1 1 = ((fun _ => true) : Fin 1 → Bool) := by
    funext j
    have hj : j = 0 := Subsingleton.elim j 0
    subst hj
    decide
  rw [hb, meanAmp_oracle_one, probOf]
  have hc1 : @toIdx 1 ((fun _ => true) : Fin 1 → Bool) = targetIndex [true] := by decide
  have h1 : oracleDirect [true] ((fun _ => Q2.s ^ 1) : QState 1)
      ((fun _ => true) : Fin 1 → Bool) = -(Q2.s ^ 1) := by
    show (if @toIdx 1 ((fun _ => true) : Fin 1 → Bool) = targetIndex [true]
        then -(Q2.s ^ 1) else Q2.s ^ 1) = -(Q2.s ^ 1)
    rw [if_pos hc1]
  rw [h1, pow_one]
  linear_combination Q2.s_mul_s

/-! ## The claims -/

/-- C1: for every valid target bit-string (length n with 1 ≤ n ≤ 8), the
optimal iteration count computed by the search-circuit builder
(`create_grover_circuit`), by the analyze handler and by the
iteration-trace handler equals `max(1, floor(π/4 · √(N/M)))` with
`N = 2^n` and `M = 1`. -/
theorem C1_iteration_formula (t : List Bool) (h1 : 1 ≤ t.length) (h8 : t.length ≤ 8) :
    optimalIterationsCircuit t = specOptimalIterations t.length ∧
    optimalIterationsAnalyze t = specOptimalIterations t.length ∧
    optimalIterationsTrace t = specOptimalIterations t.length := by
  have hspec : specOptimalIterations t.length
      = max 1 (Nat.floor (Real.pi / 4 * Real.sqrt ((2 : ℝ) ^ t.length))) := by
    unfold specOptimalIterations
    rw [div_one]
  refine ⟨?_, ?_, ?_⟩
  · unfold optimalIterationsCircuit
    rw [hspec, div_one]
  · unfold optimalIterationsAnalyze
    rw [hspec]
  · unfold optimalIterationsTrace
    rw [hspec]

/-- Witness for C1 at the concrete target 101. -/
theorem C1_iteration_formula_witness :
    optimalIterationsCircuit [true, false, true]
        = specOptimalIterations ([true, false, true] : List Bool).length ∧
    optimalIterationsAnalyze [true, false, true]
        = specOptimalIterations ([true, false, true] : List Bool).length ∧
    optimalIterationsTrace [true, false, true]
        = specOptimalIterations ([true, false, true] : List Bool).length :=
  C1_iteration_formula [true, false, true] (by decide) (by decide)

/-- C2: for every valid target bit-string and every state vector, the
X-conjugated multi-controlled-Z oracle network built by
`build_generalized_grover_oracle` acts exactly as the direct sign flip:
it multiplies the amplitude at `targetIndex` (the target parsed as a
base-2 integer) by −1 and leaves every other amplitude unchanged. -/
theorem C2_oracle_exact (t : List Bool) (h1 : 1 ≤ t.length) (h8 : t.length ≤ 8)
    (ψ : QState t.length) :
    oracleNetwork t ψ = oracleDirect t ψ :=
  oracleNetwork_eq_direct t h1 ψ

/-- Witness for C2 at target 1 and the uniform-one state vector. -/
theorem C2_oracle_exact_witness :
    oracleNetwork [true] (fun _ => 1) = oracleDirect [true] (fun _ => 1) :=
  C2_oracle_exact [true] (by decide) (by decide) (fun _ => 1)

/-- C3 counterexample: on one qubit, applied to the basis state |0⟩, the
H/X/Z/X/H diffusion network of the source does not equal the spec's
inversion about the average (the network yields amplitude −1 at |1⟩, the
inversion yields +1). -/
theorem C3_diffusion_counterexample :
    diffusionNetwork 1 (basisZero 1) ≠ diffusionDirect 1 (basisZero 1) := by
  intro h
  have h1 := congrFun h (fun _ => true)
  rw [diffusionNetwork_eq (by norm_num)] at h1
  simp only [] at h1
  have hv : ((fun _ => true) : Fin 1 → Bool) ≠ (fun _ => false) := by
    intro he
    simpa using congrFun he 0
  have hψ : basisZero 1 (fun _ => true) = 0 := by
    rw [basisZero, if_neg hv]
  have hm : meanAmp (basisZero 1) = Q2.ofRat (1/2) := by
    show Q2.ofRat (1 / 2 ^ (1:ℕ)) * ∑ v : Fin 1 → Bool, basisZero 1 v = Q2.ofRat (1/2)
    rw [sum_fun_one]
    have hz : basisZero 1 (fun _ => false) = 1 := by
      rw [basisZero, if_pos rfl]
    rw [hψ, hz, pow_one]
    ring
  have h2 : diffusionDirect 1 (basisZero 1) (fun _ => true)
      = 2 * meanAmp (basisZero 1) - basisZero 1 (fun _ => true) := rfl
  rw [h2, hψ, hm] at h1
  have h5 : (2 : Q2) = 0 := by
    linear_combination (-1 : Q2) * h1 - 2 * Q2.two_mul_ofRat_half
  have h6 := congrArg Q2.a h5
  simp at h6

/-- C3 amended: the H/X/multi-controlled-Z/X/H network realizes the
**negative** of the inversion about the average: every amplitude becomes
−(2·mean − a) = a − 2·mean, with the mean taken from the pre-diffusion
state; all probabilities agree with the spec's transformation. -/
theorem C3_diffusion_amended {n : ℕ} (h1 : 1 ≤ n) (h8 : n ≤ 8) (ψ : QState n) :
    diffusionNetwork n ψ = (fun v => -(diffusionDirect n ψ v)) ∧
    ∀ v, probOf (diffusionNetwork n ψ) v = probOf (diffusionDirect n ψ) v := by
  refine ⟨diffusionNetwork_eq_neg_direct h1 ψ, ?_⟩
  intro v
  rw [probOf, probOf, diffusionNetwork_eq_neg_direct h1 ψ]
  show (-(diffusionDirect n ψ v)) * (-(diffusionDirect n ψ v)) = _
  ring

/-- Witness for the amended C3 on one qubit at |0⟩. -/
theorem C3_diffusion_amended_witness :
    diffusionNetwork 1 (basisZero 1) = (fun v => -(diffusionDirect 1 (basisZero 1) v)) ∧
    ∀ v, probOf (diffusionNetwork 1 (basisZero 1)) v
        = probOf (diffusionDirect 1 (basisZero 1)) v :=
  C3_diffusion_amended (by decide) (by decide) (basisZero 1)

/-- C4: for every valid target and every round count, every recorded step
of the trace (the initial superposition and the states after every oracle
and every diffusion application) has probabilities summing exactly to 1 —
in particular within the 1e-9 tolerance. -/
theorem C4_normalization (t : List Bool) (h1 : 1 ≤ t.length) (h8 : t.length ≤ 8) (k : ℕ) :
    ∀ st ∈ groverSteps t k, ((st.probabilities.map Prod.snd)).sum = 1 :=
  groverSteps_sum_one t h1 k

/-- Witness for C4: the initial step of the 1-qubit run. -/
theorem C4_normalization_witness :
    (((mkStep "Initial Superposition" 0 (applyHAll (basisZero 1))
        (targetIndex [true])).probabilities.map Prod.snd)).sum = 1 :=
  C4_normalization [true] (by decide) (by decide) 1 _
    (by rw [groverSteps]; exact List.mem_cons_self _ _)

/-- C5 counterexample: for the target 1 on one qubit the trace runs its
optimal single round, and the recorded final target probability is
exactly 1/2 — not within 1e-9 of 1.0 as the claim states. -/
theorem C5_final_probability_counterexample :
    optimalIterationsTrace [true] = 1 ∧
    finalTargetProbability [true] (optimalIterationsTrace [true]) = Q2.ofRat (1/2) ∧
    ¬ (|(finalTargetProbability [true] (optimalIterationsTrace [true])).a - 1|
        ≤ 1 / 1000000000) := by
  have hopt : optimalIterationsTrace [true] = 1 := by
    unfold optimalIterationsTrace
    rw [show ([true] : List Bool).length = 1 from rfl, floorPow1]
    decide
  refine ⟨hopt, ?_, ?_⟩
  · rw [hopt, finalProb_one]
  · rw [hopt, finalProb_one]
    intro hle
    rw [Q2.ofRat_a] at hle
    have habs : |(1/2 : ℚ) - 1| = 1/2 := by
      rw [show (1/2 : ℚ) - 1 = -(1/2) by norm_num, abs_neg,
        abs_of_pos (show (0:ℚ) < 1/2 by norm_num)]
    rw [habs] at hle
    norm_num at hle

/-- C5 amended: for the target 1 with one qubit the optimal iteration
count is 1 and the final recorded target probability is exactly 0.5
(Grover on a 2-state space leaves the marked state at probability 1/2). -/
theorem C5_final_probability_amended :
    optimalIterationsTrace [true] = 1 ∧
    finalTargetProbability [true] (optimalIterationsTrace [true]) = Q2.ofRat (1/2) := by
  have hopt : optimalIterationsTrace [true] = 1 := by
    unfold optimalIterationsTrace
    rw [show ([true] : List Bool).length = 1 from rfl, floorPow1]
    decide
  refine ⟨hopt, ?_⟩
  rw [hopt, finalProb_one]

/-- C6: the basis-string keys of the probability mappings are the
width-n most-significant-bit-first binary representations of the indices
(every key parses back to its index, and the target's own index yields
the target string back — no bit reversal or endianness transform), and
targetIndex is the target parsed as a base-2 integer: target 101 has
index 5. -/
theorem C6_basis_keys (t : List Bool) (h1 : 1 ≤ t.length) (h8 : t.length ≤ 8) :
    (∀ ψ : QState t.length, (probList ψ).map Prod.fst
        = (List.range (2 ^ t.length)).map (fun i => binStr t.length i)) ∧
    (∀ i, i < 2 ^ t.length →
      (binStr t.length i).length = t.length ∧ targetIndex (binStr t.length i) = i) ∧
    binStr t.length (targetIndex t) = t ∧
    targetIndex [true, false, true] = 5 := by
  refine ⟨?_, ?_, binStr_targetIndex t, by decide⟩
  · intro ψ
    rw [probList, List.map_map]
    rfl
  · intro i hi
    exact ⟨binStr_length t.length i, targetIndex_binStr t.length i hi⟩

/-- Witness for C6 at the concrete target 101. -/
theorem C6_basis_keys_witness :
    (∀ ψ : QState ([true, false, true] : List Bool).length, (probList ψ).map Prod.fst
        = (List.range (2 ^ ([true, false, true] : List Bool).length)).map
            (fun i => binStr ([true, false, true] : List Bool).length i)) ∧
    (∀ i, i < 2 ^ ([true, false, true] : List Bool).length →
      (binStr ([true, false, true] : List Bool).length i).length
          = ([true, false, true] : List Bool).length ∧
        targetIndex (binStr ([true, false, true] : List Bool).length i) = i) ∧
    binStr ([true, false, true] : List Bool).length (targetIndex [true, false, true])
        = [true, false, true] ∧
    targetIndex [true, false, true] = 5 :=
  C6_basis_keys [true, false, true] (by decide) (by decide)

/-- C7: the analyze handler and the iteration-trace handler report the
same optimal iteration count, the search-circuit builder (computed via
√(N/M) with M = 1) agrees with both, and for every supported length the
common value is the explicit table 1, 1, 2, 3, 4, 6, 8, 12 — no
off-by-one divergence between the rounding paths. -/
theorem C7_no_divergence (t : List Bool) (h1 : 1 ≤ t.length) (h8 : t.length ≤ 8) :
    optimalIterationsAnalyze t = optimalIterationsTrace t ∧
    optimalIterationsCircuit t = optimalIterationsAnalyze t ∧
    optimalIterationsAnalyze t = [1, 1, 2, 3, 4, 6, 8, 12].getD (t.length - 1) 0 := by
  refine ⟨rfl, ?_, ?_⟩
  · unfold optimalIterationsCircuit optimalIterationsAnalyze
    rw [div_one]
  · unfold optimalIterationsAnalyze
    exact optIterFloor_table t.length h1 h8

/-- Witness for C7 at the concrete target 11. -/
theorem C7_no_divergence_witness :
    optimalIterationsAnalyze [true, true] = optimalIterationsTrace [true, true] ∧
    optimalIterationsCircuit [true, true] = optimalIterationsAnalyze [true, true] ∧
    optimalIterationsAnalyze [true, true]
        = [1, 1, 2, 3, 4, 6, 8, 12].getD (([true, true] : List Bool).length - 1) 0 :=
  C7_no_divergence [true, true] (by decide) (by decide)

/-- C8: for every shot count S in the accepted range [100, 10000], the
measurement counts of a run of S draws are natural numbers (hence
non-negative integers) summing exactly to S. -/
theorem C8_counts_sum (n S : ℕ) (h100 : 100 ≤ S) (h10000 : S ≤ 10000)
    (draws : List (Fin (2 ^ n))) (hlen : draws.length = S) :
    ∑ b : Fin (2 ^ n), measurementCounts draws b = S := by
  rw [sum_measurementCounts, hlen]

/-- Witness for C8: 100 shots all landing on basis state 0 of a 1-qubit
space. -/
theorem C8_counts_sum_witness :
    ∑ b : Fin (2 ^ 1), measurementCounts (List.replicate 100 (0 : Fin (2 ^ 1))) b = 100 :=
  C8_counts_sum 1 100 (by decide) (by decide) _ (by simp)

/-- C9: in the recorded trace of every valid target, every After Oracle
step carries exactly the probability mapping (and target probability) of
the immediately preceding recorded step: the phase flip never changes a
recorded probability. -/
theorem C9_oracle_preserves_probs (t : List Bool) (h1 : 1 ≤ t.length)
    (h8 : t.length ≤ 8) (k : ℕ) :
    List.Chain' oracleKeepsProbs (groverSteps t k) :=
  groverSteps_chain t h1 k

/-- Witness for C9: the 1-qubit single-round trace. -/
theorem C9_oracle_preserves_probs_witness :
    List.Chain' oracleKeepsProbs (groverSteps [true] 1) :=
  C9_oracle_preserves_probs [true] (by decide) (by decide) 1

/-- C10: every target-state path parameter that is empty, contains a
character other than 0 or 1, or has length outside
[MIN_QUBITS, MAX_QUBITS] is rejected by the analyze, circuit-info and
iteration-trace handlers with an HTTP error of status exactly 400, the
error being returned before any circuit or state vector enters the
computation. -/
theorem C10_validation_rejects (s : List Char)
    (h : s = [] ∨ (∃ c ∈ s, ¬(c = '0' ∨ c = '1'))
        ∨ s.length < MIN_QUBITS ∨ MAX_QUBITS < s.length) :
    analyzeEndpoint s = .error 400 ∧ circuitInfoEndpoint s = .error 400 ∧
      iterationsEndpoint s = .error 400 := by
  have hv := validateTarget_invalid s h
  refine ⟨?_, ?_, ?_⟩
  · unfold analyzeEndpoint
    rw [hv]
  · unfold circuitInfoEndpoint
    rw [hv]
  · unfold iterationsEndpoint
    rw [hv]

/-- Witness for C10 at the concrete invalid target 2. -/
theorem C10_validation_rejects_witness :
    analyzeEndpoint ['2'] = .error 400 ∧ circuitInfoEndpoint ['2'] = .error 400 ∧
      iterationsEndpoint ['2'] = .error 400 :=
  C10_validation_rejects ['2'] (by decide)

end GroverSpec
